import Mathlib

/-!
Verification of the RSI strategy analyzer.

The repository's entry point (`streamlit_app/app.py`) imports the core engine
(`rsi`, `backtest_simple_strategy`, the performance summarizer and the regime
tagger) from `utils.strategies`, a module whose code is not part of the
checked-in sources here.  The core definitions below are therefore modelled
from the specification's component design (§4), while the data-fetch
collaborator `fetch_data_yfinance` is embedded directly from
`streamlit_app/app.py`.  Prices, RSI values and P&L percentages are modelled
as rationals; timestamps as naturals.
-/

/-- Modelled from the spec: error taxonomy of §7 for the core (the
`utils.strategies` module is missing from the sources).  `invalidParameter`
for malformed indicator parameters, `missingConfigField` for a strategy
configuration missing a field its mode requires. -/
inductive StratError where
  | invalidParameter
  | missingConfigField
deriving DecidableEq

/-- Side of a trade or open position. -/
inductive Side where
  | long
  | short
deriving DecidableEq

/-- A price bar: only the fields the core consults (timestamp and close). -/
structure Bar where
  time : ℕ
  close : ℚ
deriving DecidableEq

/-- Modelled from the spec: the immutable Trade record of §3, produced when a
position closes (the `utils.strategies` module is missing from the sources). -/
structure Trade where
  entry_time : ℕ
  entry_price : ℚ
  exit_time : ℕ
  exit_price : ℚ
  side : Side
  pnl_pct : ℚ
  cumulative_pnl_pct : ℚ
deriving DecidableEq

/-- Modelled from the spec: the transient Position state of §3, restricted to
an open position (flatness is the `none` of an `Option OpenPos`). -/
structure OpenPos where
  entry_time : ℕ
  entry_price : ℚ
deriving DecidableEq

/-- Modelled from the spec: strategy modes of §3. -/
inductive Mode where
  | mean_reversion
  | overbought_reversal
  | trend_follow_rsi
deriving DecidableEq

/-- Modelled from the spec: StrategyConfig of §3; only fields relevant to
`mode` are consulted, optional thresholds are `Option`s. -/
structure StrategyConfig where
  name : String
  mode : Mode
  lower : Option ℚ := none
  upper : Option ℚ := none
  exit_level : Option ℚ := none
deriving DecidableEq

/-- Modelled from the spec: StrategySummary of §3. -/
structure StrategySummary where
  total_trades : ℕ
  total_pnl_pct : ℚ
  win_rate_pct : ℚ
  avg_pnl_pct : ℚ
  max_drawdown_pct : ℚ
deriving DecidableEq

/-- Modelled from the spec: signed holding-period return of §4.2 —
`(exit-entry)/entry*100` for long, negated for short. -/
def pnlOf : Side → ℚ → ℚ → ℚ
  | .long, entry, exitPrice => (exitPrice - entry) / entry * 100
  | .short, entry, exitPrice => (entry - exitPrice) / entry * 100

/-- State threaded through the Strategy Engine's single pass: at most one open
position, running cumulative P&L, trades emitted so far, and the previous
bar's RSI (needed by the cross-of-50 rules). -/
structure EngineState where
  pos : Option OpenPos
  cum : ℚ
  trades : List Trade
  prevRsi : Option ℚ
deriving DecidableEq

/-- Modelled from the spec: one bar of the Strategy Engine loop of §4.2.
Current position state is evaluated first: when a position is open only the
exit signal is consulted (closing emits a Trade at this bar's close), and the
entry signal is consulted only when flat (opening at this bar's close). -/
def runStep (side : Side) (entrySig exitSig : Option ℚ → ℚ → Bool)
    (st : EngineState) (bar : Bar) (r : ℚ) : EngineState :=
  match st.pos with
  | some p =>
    if exitSig st.prevRsi r then
      let pnl := pnlOf side p.entry_price bar.close
      let cum := st.cum + pnl
      { pos := none
        cum := cum
        trades := st.trades ++
          [{ entry_time := p.entry_time, entry_price := p.entry_price,
             exit_time := bar.time, exit_price := bar.close,
             side := side, pnl_pct := pnl, cumulative_pnl_pct := cum }]
        prevRsi := some r }
    else { st with prevRsi := some r }
  | none =>
    if entrySig st.prevRsi r then
      { st with pos := some { entry_time := bar.time, entry_price := bar.close },
                prevRsi := some r }
    else { st with prevRsi := some r }

/-- Initial engine state: flat, zero cumulative P&L, no trades, no prior RSI. -/
def initState : EngineState :=
  { pos := none, cum := 0, trades := [], prevRsi := none }

/-- One fold step of the engine over an aligned (bar, RSI) pair. -/
def engStep (side : Side) (entrySig exitSig : Option ℚ → ℚ → Bool) :
    EngineState → Bar × ℚ → EngineState :=
  fun st br => runStep side entrySig exitSig st br.1 br.2

/-- Final engine state after the single pass over the aligned bars. -/
def finalState (side : Side) (entrySig exitSig : Option ℚ → ℚ → Bool)
    (bars : List Bar) (rsis : List ℚ) : EngineState :=
  (bars.zip rsis).foldl (engStep side entrySig exitSig) initState

/-- Trades emitted by the single pass; a position still open at the end is
discarded (only `.trades` of the final state is consumed). -/
def runEngine (side : Side) (entrySig exitSig : Option ℚ → ℚ → Bool)
    (bars : List Bar) (rsis : List ℚ) : List Trade :=
  (finalState side entrySig exitSig bars rsis).trades

/-- Mean-reversion entry: flat and RSI strictly below the lower threshold. -/
def mrEntry (lo : ℚ) : Option ℚ → ℚ → Bool := fun _ r => decide (r < lo)

/-- Mean-reversion exit: long and RSI strictly above the exit level. -/
def mrExit (ex : ℚ) : Option ℚ → ℚ → Bool := fun _ r => decide (ex < r)

/-- Overbought-reversal entry: flat and RSI strictly above the upper threshold. -/
def obEntry (up : ℚ) : Option ℚ → ℚ → Bool := fun _ r => decide (up < r)

/-- Overbought-reversal exit: short and RSI strictly below the exit level. -/
def obExit (ex : ℚ) : Option ℚ → ℚ → Bool := fun _ r => decide (r < ex)

/-- Trend-follow entry: RSI crosses above 50 (previous bar ≤ 50, current > 50);
no signal on the first bar, which has no previous RSI. -/
def tfEntry : Option ℚ → ℚ → Bool :=
  fun prev r => match prev with
    | none => false
    | some pv => decide (pv ≤ 50 ∧ 50 < r)

/-- Trend-follow exit: RSI crosses below 50 (previous bar ≥ 50, current < 50). -/
def tfExit : Option ℚ → ℚ → Bool :=
  fun prev r => match prev with
    | none => false
    | some pv => decide (50 ≤ pv ∧ r < 50)

/-- Modelled from the spec: the per-mode rule set of §4.2.  Returns the side
and the entry/exit signals when every threshold the mode requires is present,
`none` when a required field is missing (never substituting a default). -/
def engineSigs (cfg : StrategyConfig) :
    Option (Side × (Option ℚ → ℚ → Bool) × (Option ℚ → ℚ → Bool)) :=
  match cfg.mode with
  | .mean_reversion =>
    match cfg.lower, cfg.exit_level with
    | some lo, some ex => some (.long, mrEntry lo, mrExit ex)
    | _, _ => none
  | .overbought_reversal =>
    match cfg.upper, cfg.exit_level with
    | some up, some ex => some (.short, obEntry up, obExit ex)
    | _, _ => none
  | .trend_follow_rsi => some (.long, tfEntry, tfExit)

/-- Spec-worded predicate: the mode requires a threshold field that is absent
from the config (mean reversion needs `lower` and `exit_level`, overbought
reversal needs `upper` and `exit_level`, trend-follow needs none). -/
def missingField (cfg : StrategyConfig) : Bool :=
  match cfg.mode with
  | .mean_reversion => cfg.lower.isNone || cfg.exit_level.isNone
  | .overbought_reversal => cfg.upper.isNone || cfg.exit_level.isNone
  | .trend_follow_rsi => false

/-- Tail of the maximum-drawdown scan: `peak` is the running peak of the
points consumed so far, `best` the largest drawdown observed so far. -/
def mddAux (peak best : ℚ) : List ℚ → ℚ
  | [] => best
  | x :: xs => mddAux (max peak x) (max best (max peak x - x)) xs

/-- Modelled from the spec: maximum peak-to-trough decline of a cumulative
P&L curve (§4.3), reported as a non-negative magnitude; 0 for an empty curve. -/
def maxDrawdown : List ℚ → ℚ
  | [] => 0
  | x :: xs => mddAux x 0 xs

/-- Modelled from the spec: the Performance Summarizer of §4.3
(the `utils.strategies` module is missing from the sources).  Ratios are
defined as 0 when there are no trades rather than dividing by zero. -/
def summarize (trades : List Trade) : StrategySummary :=
  let n := trades.length
  let total := (trades.map (fun t => t.pnl_pct)).sum
  { total_trades := n
    total_pnl_pct := total
    win_rate_pct :=
      if n = 0 then 0
      else 100 * (((trades.filter (fun t => 0 < t.pnl_pct)).length : ℚ)) / (n : ℚ)
    avg_pnl_pct := if n = 0 then 0 else total / (n : ℚ)
    max_drawdown_pct := maxDrawdown (trades.map (fun t => t.cumulative_pnl_pct)) }

/-- Modelled from the spec: the Strategy Engine contract of §4.2
(`backtest_simple_strategy` in the missing `utils.strategies` module).
Fails with `missingConfigField` when the mode requires an absent threshold;
otherwise runs the single pass and returns the summary with the trade list. -/
def backtest (bars : List Bar) (rsis : List ℚ) (cfg : StrategyConfig) :
    Except StratError (StrategySummary × List Trade) :=
  match engineSigs cfg with
  | none => .error .missingConfigField
  | some (sd, es, xs) =>
    let ts := runEngine sd es xs bars rsis
    .ok (summarize ts, ts)

/-- Per-bar price deltas of a closing-price series. -/
def deltas : List ℚ → List ℚ
  | [] => []
  | [_] => []
  | a :: b :: rest => (b - a) :: deltas (b :: rest)

/-- Gain part of a delta: the delta when positive, else 0. -/
def gainOf (d : ℚ) : ℚ := if 0 < d then d else 0

/-- Loss part of a delta: its absolute value when negative, else 0. -/
def lossOf (d : ℚ) : ℚ := if d < 0 then -d else 0

/-- Wilder smoothing step of §4.1: next average = `(prev*(period-1)+cur)/period`. -/
def wilderStep (p : ℕ) (a x : ℚ) : ℚ := (a * ((p : ℚ) - 1) + x) / (p : ℚ)

/-- Modelled from the spec: the RSI point formula of §4.1 with its
division-by-zero edge cases — both averages zero gives 50, zero average loss
alone gives 100, otherwise `100 - 100/(1 + avg_gain/avg_loss)`. -/
def rsiValue (ag al : ℚ) : ℚ :=
  if ag = 0 ∧ al = 0 then 50
  else if al = 0 then 100
  else 100 - 100 / (1 + ag / al)

/-- Modelled from the spec: the Indicator Module `rsi` of §4.1 (the
`utils.strategies` module is missing from the sources).  Wilder smoothing is
the documented choice; output is aligned with the input, the first `period`
entries undefined (`none`).  Fails with `invalidParameter` when `period < 1`
or `period ≥ length closes`. -/
def rsi (closes : List ℚ) (period : ℕ) : Except StratError (List (Option ℚ)) :=
  if period < 1 ∨ closes.length ≤ period then .error .invalidParameter
  else
    let ds := deltas closes
    let gains := ds.map gainOf
    let losses := ds.map lossOf
    let avgGains :=
      (gains.drop period).scanl (wilderStep period) ((gains.take period).sum / (period : ℚ))
    let avgLosses :=
      (losses.drop period).scanl (wilderStep period) ((losses.take period).sum / (period : ℚ))
    .ok (List.replicate period none ++
      List.zipWith (fun g l => some (rsiValue g l)) avgGains avgLosses)

/-- The three strategy configurations the application builds
(`streamlit_app/app.py`, the `strategies` list), as functions of the three
slider values. -/
def appStrategies (lower_thresh upper_thresh exit_lv : ℚ) : List StrategyConfig :=
  [ { name := "Mean Reversion", mode := .mean_reversion,
      lower := some lower_thresh, exit_level := some exit_lv },
    { name := "Overbought Reversal", mode := .overbought_reversal,
      upper := some upper_thresh, exit_level := some exit_lv },
    { name := "Trend-follow RSI", mode := .trend_follow_rsi } ]

/-- One row of a downloaded OHLCV dataframe (`hasNa` marks a row that the
`dropna` of `fetch_data_yfinance` removes). -/
structure RawRow where
  rowOpen : ℚ
  rowHigh : ℚ
  rowLow : ℚ
  rowClose : ℚ
  rowVolume : ℚ
  hasNa : Bool
deriving DecidableEq

/-- Outcome of one `yf.download` call: an exception, a `None` frame, or a
frame with rows (and possibly no Volume column). -/
inductive DownloadResult where
  | raised (msg : String)
  | noneFrame
  | frame (hasVolume : Bool) (rows : List RawRow)

/-- Post-validation processing of `fetch_data_yfinance`: drop NaN rows, then
default the Volume column to 0 when it is missing. -/
def processFrame (hasVolume : Bool) (rows : List RawRow) : List RawRow :=
  let kept := rows.filter (fun r => !r.hasNa)
  if hasVolume then kept else kept.map (fun r => { r with rowVolume := 0 })

/-- Message of the ValueError raised inside `fetch_data_yfinance` when the
downloaded frame is `None` or empty. -/
def emptyFrameMsg : String := "Empty dataframe returned (possible rate limit)."

/-- Message of the RuntimeError raised after all retries are exhausted,
carrying the last underlying error (`None` when no attempt recorded one). -/
def retriesMsg (lastErr : Option String) : String :=
  "Yahoo fetch failed after retries: " ++ lastErr.getD "None"

/-- One loop body of `fetch_data_yfinance`: a raised download, a `None` frame
and an empty frame are all failures; otherwise the frame is processed and
returned. -/
def attemptDownload (d : DownloadResult) : Except String (List RawRow) :=
  match d with
  | .raised msg => .error msg
  | .noneFrame => .error emptyFrameMsg
  | .frame hasVol rows =>
    if rows.isEmpty then .error emptyFrameMsg
    else .ok (processFrame hasVol rows)

/-- The retry loop of `fetch_data_yfinance` over remaining attempts, threading
the last error; the second component records the sleeps performed after failed
attempts, in tenths of a second (`time.sleep(1.5*(attempt+1))`). -/
def fetchAux (oracle : ℕ → DownloadResult) :
    ℕ → ℕ → Option String → Except String (List RawRow) × List ℕ
  | 0, _, lastErr => (.error (retriesMsg lastErr), [])
  | n + 1, attempt, _lastErr =>
    match attemptDownload (oracle attempt) with
    | .ok df => (.ok df, [])
    | .error e =>
      let rest := fetchAux oracle n (attempt + 1) (some e)
      (rest.1, 15 * (attempt + 1) :: rest.2)

/-- `fetch_data_yfinance` of `streamlit_app/app.py`: four attempts, the
download oracle giving each attempt's outcome; `lastErr` starts as `None`. -/
def fetch_data_yfinance (oracle : ℕ → DownloadResult) :
    Except String (List RawRow) × List ℕ :=
  fetchAux oracle 4 0 none

/-- Running peak of a cumulative P&L curve at point `i`: the maximum of the
first `i+1` values (0 for an empty curve). -/
def runningPeak (curve : List ℚ) (i : ℕ) : ℚ :=
  match curve with
  | [] => 0
  | x :: xs => (xs.take i).foldl max x

/-- Spec-worded drawdown at point `i`: running peak minus current value. -/
def drawdownAt (curve : List ℚ) (i : ℕ) : ℚ :=
  runningPeak curve i - curve.getD i 0

/-- Spec-worded maximum drawdown: the maximum, over all points of the curve,
of (running peak − current value), and 0 for an empty curve. -/
def specMaxDrawdown (curve : List ℚ) : ℚ :=
  ((List.range curve.length).map (drawdownAt curve)).foldl max 0

/-- Drawdowns of the points of a list, threading a running peak. -/
def ddFrom (peak : ℚ) : List ℚ → List ℚ
  | [] => []
  | x :: xs => (max peak x - x) :: ddFrom (max peak x) xs

/-- Cumulative-sum correctness of a trade list relative to a starting sum:
each trade's `cumulative_pnl_pct` is the previous running sum plus its own
`pnl_pct`. -/
def cumOk : ℚ → List Trade → Prop
  | _, [] => True
  | c, t :: ts => t.cumulative_pnl_pct = c + t.pnl_pct ∧ cumOk (c + t.pnl_pct) ts

/-- Shape of every emitted trade of a one-sided strategy: the configured side,
and `pnl_pct` the signed holding-period return of its own entry/exit prices. -/
def TradeShape (side : Side) (t : Trade) : Prop :=
  t.side = side ∧ t.pnl_pct = pnlOf side t.entry_price t.exit_price

/-- Chronology invariant of the engine pass, relative to the bars still to be
processed: an open position was entered strictly before every remaining bar
and strictly after every already-emitted trade's entry, and every emitted
trade entered strictly before it exited, which happened strictly before every
remaining bar. -/
def EngInv (st : EngineState) (rem : List (Bar × ℚ)) : Prop :=
  (∀ p : OpenPos, st.pos = some p →
    (∀ br ∈ rem, p.entry_time < br.1.time) ∧ ∀ t ∈ st.trades, t.entry_time < p.entry_time)
  ∧ ∀ t ∈ st.trades, t.entry_time < t.exit_time ∧ ∀ br ∈ rem, t.exit_time < br.1.time

/-- A member of a zipWith is the image of members of the two lists. -/
theorem mem_zipWith_elim {α β γ : Type _} {f : α → β → γ} :
    ∀ {as : List α} {bs : List β} {c : γ}, c ∈ List.zipWith f as bs →
      ∃ a b, a ∈ as ∧ b ∈ bs ∧ c = f a b := by
  intro as
  induction as with
  | nil => intro bs c h; simp at h
  | cons a as ih =>
    intro bs c h
    cases bs with
    | nil => simp at h
    | cons b bs =>
      simp only [List.zipWith_cons_cons, List.mem_cons] at h
      rcases h with h | h
      · exact ⟨a, b, by simp, by simp, h⟩
      · rcases ih h with ⟨a', b', ha, hb, hc⟩
        exact ⟨a', b', by simp [ha], by simp [hb], hc⟩

/-- A predicate preserved by the fold step holds at every point of a scanl. -/
theorem scanl_mem_pred {α β : Type _} (P : α → Prop) (f : α → β → α) :
    ∀ (xs : List β) (init : α), P init →
      (∀ a x, P a → x ∈ xs → P (f a x)) →
      ∀ y ∈ List.scanl f init xs, P y := by
  intro xs
  induction xs with
  | nil =>
    intro init h _ y hy
    simp [List.scanl] at hy
    exact hy ▸ h
  | cons x xs ih =>
    intro init h hstep y hy
    simp only [List.scanl, List.mem_cons] at hy
    rcases hy with rfl | hy
    · exact h
    · exact ih (f init x) (hstep init x h (by simp))
        (fun a z ha hz => hstep a z ha (by simp [hz])) y hy

/-- The deltas list is one shorter than its input. -/
theorem deltas_length : ∀ closes : List ℚ, (deltas closes).length = closes.length - 1
  | [] => by simp [deltas]
  | [_] => by simp [deltas]
  | a :: b :: rest => by
    have ih := deltas_length (b :: rest)
    simp [deltas] at ih ⊢
    omega

/-- Deltas of a constant series are all zero. -/
theorem deltas_mem_const {c : ℚ} : ∀ closes : List ℚ, (∀ x ∈ closes, x = c) →
    ∀ d ∈ deltas closes, d = 0
  | [] => by intro _ d hd; simp [deltas] at hd
  | [_] => by intro _ d hd; simp [deltas] at hd
  | a :: b :: rest => by
    intro hconst d hd
    simp only [deltas, List.mem_cons] at hd
    rcases hd with rfl | hd
    · have ha : a = c := hconst a (by simp)
      have hb : b = c := hconst b (by simp)
      simp [ha, hb]
    · exact deltas_mem_const (b :: rest) (fun x hx => hconst x (by simp [List.mem_cons] at hx ⊢; tauto)) d hd

/-- Deltas of a strictly decreasing series are all negative. -/
theorem deltas_mem_dec : ∀ closes : List ℚ, List.Chain' (fun a b => b < a) closes →
    ∀ d ∈ deltas closes, d < 0
  | [] => by intro _ d hd; simp [deltas] at hd
  | [_] => by intro _ d hd; simp [deltas] at hd
  | a :: b :: rest => by
    intro hch d hd
    rw [List.chain'_cons] at hch
    simp only [deltas, List.mem_cons] at hd
    rcases hd with rfl | hd
    · linarith [hch.1]
    · exact deltas_mem_dec (b :: rest) hch.2 d hd

/-- Pairwise order on bars transfers to their zip with the RSI series. -/
theorem pairwise_zip_bars {R : Bar → Bar → Prop} :
    ∀ (l1 : List Bar) (l2 : List ℚ), l1.Pairwise R →
      (l1.zip l2).Pairwise (fun a b => R a.1 b.1) := by
  intro l1
  induction l1 with
  | nil => intro l2 _; simp
  | cons a l1 ih =>
    intro l2 hpw
    cases l2 with
    | nil => simp
    | cons b l2 =>
      rw [List.zip_cons_cons, List.pairwise_cons]
      obtain ⟨hhd, htl⟩ := List.pairwise_cons.mp hpw
      exact ⟨fun y hy => hhd y.1 (List.of_mem_zip hy).1, ih l2 htl⟩


/-- Open position, exit signal fires: the position closes and one trade is
emitted at this bar's close. -/
theorem runStep_open_exit {side : Side} {esig xsig : Option ℚ → ℚ → Bool}
    {st : EngineState} {bar : Bar} {r : ℚ} {p : OpenPos}
    (hp : st.pos = some p) (hx : xsig st.prevRsi r = true) :
    runStep side esig xsig st bar r =
      { pos := none
        cum := st.cum + pnlOf side p.entry_price bar.close
        trades := st.trades ++
          [{ entry_time := p.entry_time, entry_price := p.entry_price,
             exit_time := bar.time, exit_price := bar.close, side := side,
             pnl_pct := pnlOf side p.entry_price bar.close,
             cumulative_pnl_pct := st.cum + pnlOf side p.entry_price bar.close }]
        prevRsi := some r } := by
  simp [runStep, hp, hx]

/-- Open position, exit signal silent: only the previous RSI is updated. -/
theorem runStep_open_hold {side : Side} {esig xsig : Option ℚ → ℚ → Bool}
    {st : EngineState} {bar : Bar} {r : ℚ} {p : OpenPos}
    (hp : st.pos = some p) (hx : xsig st.prevRsi r = false) :
    runStep side esig xsig st bar r = { st with prevRsi := some r } := by
  simp [runStep, hp, hx]

/-- Flat, entry signal fires: a position opens at this bar's close and no
trade is emitted. -/
theorem runStep_flat_entry {side : Side} {esig xsig : Option ℚ → ℚ → Bool}
    {st : EngineState} {bar : Bar} {r : ℚ}
    (hp : st.pos = none) (he : esig st.prevRsi r = true) :
    runStep side esig xsig st bar r =
      { st with pos := some { entry_time := bar.time, entry_price := bar.close },
                prevRsi := some r } := by
  simp [runStep, hp, he]

/-- Flat, entry signal silent: only the previous RSI is updated. -/
theorem runStep_flat_hold {side : Side} {esig xsig : Option ℚ → ℚ → Bool}
    {st : EngineState} {bar : Bar} {r : ℚ}
    (hp : st.pos = none) (he : esig st.prevRsi r = false) :
    runStep side esig xsig st bar r = { st with prevRsi := some r } := by
  simp [runStep, hp, he]

/-- One engine step preserves the chronology invariant. -/
theorem engStep_preserves_inv (side : Side) (es xs : Option ℚ → ℚ → Bool)
    (st : EngineState) (bar : Bar) (r : ℚ) (rest : List (Bar × ℚ))
    (hhd : ∀ br ∈ rest, bar.time < br.1.time)
    (hinv : EngInv st ((bar, r) :: rest)) :
    EngInv (runStep side es xs st bar r) rest := by
  obtain ⟨hposI, htrI⟩ := hinv
  cases hp : st.pos with
  | some p =>
    have hpfacts := hposI p hp
    cases hx : xs st.prevRsi r with
    | true =>
      rw [runStep_open_exit hp hx]
      constructor
      · intro q hq
        simp at hq
      · intro t ht
        simp only [List.mem_append, List.mem_singleton] at ht
        rcases ht with ht | rfl
        · exact ⟨(htrI t ht).1, fun br hbr => (htrI t ht).2 br (by simp [hbr])⟩
        · exact ⟨hpfacts.1 (bar, r) (by simp), fun br hbr => hhd br hbr⟩
    | false =>
      rw [runStep_open_hold hp hx]
      constructor
      · intro q hq
        have hq' : some p = some q := by rw [← hp]; exact hq
        rcases Option.some.inj hq' with rfl
        exact ⟨fun br hbr => hpfacts.1 br (by simp [hbr]), hpfacts.2⟩
      · intro t ht
        exact ⟨(htrI t ht).1, fun br hbr => (htrI t ht).2 br (by simp [hbr])⟩
  | none =>
    cases he : es st.prevRsi r with
    | true =>
      rw [runStep_flat_entry hp he]
      constructor
      · intro q hq
        simp at hq
        subst hq
        refine ⟨fun br hbr => hhd br hbr, fun t ht => ?_⟩
        have hts := htrI t ht
        calc t.entry_time < t.exit_time := hts.1
          _ < bar.time := hts.2 (bar, r) (by simp)
      · intro t ht
        exact ⟨(htrI t ht).1, fun br hbr => (htrI t ht).2 br (by simp [hbr])⟩
    | false =>
      rw [runStep_flat_hold hp he]
      constructor
      · intro q hq
        have hq' : (none : Option OpenPos) = some q := by rw [← hp]; exact hq
        simp at hq'
      · intro t ht
        exact ⟨(htrI t ht).1, fun br hbr => (htrI t ht).2 br (by simp [hbr])⟩

/-- The chronology invariant carried through the whole fold. -/
theorem engFold_inv (side : Side) (es xs : Option ℚ → ℚ → Bool) :
    ∀ (l : List (Bar × ℚ)) (st : EngineState),
      l.Pairwise (fun a b => a.1.time < b.1.time) → EngInv st l →
      EngInv (l.foldl (engStep side es xs) st) [] := by
  intro l
  induction l with
  | nil => intro st _ h; simpa using h
  | cons br rest ih =>
    intro st hpw hinv
    rw [List.foldl_cons]
    obtain ⟨hhd, htl⟩ := List.pairwise_cons.mp hpw
    exact ih _ htl
      (engStep_preserves_inv side es xs st br.1 br.2 rest (fun b hb => hhd b hb) hinv)

/-- The chronology invariant holds of the final engine state. -/
theorem finalState_inv (side : Side) (es xs : Option ℚ → ℚ → Bool)
    (bars : List Bar) (rsis : List ℚ)
    (hsort : bars.Pairwise (fun a b => a.time < b.time)) :
    EngInv (finalState side es xs bars rsis) [] := by
  refine engFold_inv side es xs (bars.zip rsis) initState
    (pairwise_zip_bars bars rsis hsort) ?_
  constructor
  · intro p hp; simp [initState] at hp
  · intro t ht; simp [initState] at ht

/-- Every trade accumulated through the fold has the configured side and the
side's signed-return formula over its own entry and exit prices. -/
theorem engFold_shape (side : Side) (es xs : Option ℚ → ℚ → Bool) :
    ∀ (l : List (Bar × ℚ)) (st : EngineState),
      (∀ t ∈ st.trades, TradeShape side t) →
      ∀ t ∈ (l.foldl (engStep side es xs) st).trades, TradeShape side t := by
  intro l
  induction l with
  | nil => intro st h; simpa using h
  | cons br rest ih =>
    intro st h
    rw [List.foldl_cons]
    refine ih _ ?_
    intro t ht
    rcases br with ⟨bar, r⟩
    cases hp : st.pos with
    | some p =>
      cases hx : xs st.prevRsi r with
      | true =>
        rw [show engStep side es xs st (bar, r) = runStep side es xs st bar r from rfl,
          runStep_open_exit hp hx] at ht
        simp only [List.mem_append, List.mem_singleton] at ht
        rcases ht with ht | rfl
        · exact h t ht
        · exact ⟨rfl, rfl⟩
      | false =>
        rw [show engStep side es xs st (bar, r) = runStep side es xs st bar r from rfl,
          runStep_open_hold hp hx] at ht
        exact h t ht
    | none =>
      cases he : es st.prevRsi r with
      | true =>
        rw [show engStep side es xs st (bar, r) = runStep side es xs st bar r from rfl,
          runStep_flat_entry hp he] at ht
        exact h t ht
      | false =>
        rw [show engStep side es xs st (bar, r) = runStep side es xs st bar r from rfl,
          runStep_flat_hold hp he] at ht
        exact h t ht

/-- Appending a trade whose cumulative field extends the running sum preserves
cumulative-sum correctness. -/
theorem cumOk_append : ∀ (ts : List Trade) (c : ℚ) (t : Trade),
    cumOk c ts →
    t.cumulative_pnl_pct = c + (ts.map (fun u => u.pnl_pct)).sum + t.pnl_pct →
    cumOk c (ts ++ [t])
  | [], c, t => by
    intro _ h
    refine ⟨?_, trivial⟩
    simpa using h
  | u :: ts, c, t => by
    intro hc ht
    obtain ⟨h1, h2⟩ := hc
    refine ⟨h1, cumOk_append ts (c + u.pnl_pct) t h2 ?_⟩
    rw [ht]
    simp only [List.map_cons, List.sum_cons]
    ring

/-- Cumulative-sum correctness gives the prefix-sum reading at every index. -/
theorem cumOk_get : ∀ (ts : List Trade) (c : ℚ), cumOk c ts →
    ∀ i (h : i < ts.length),
      (ts.get ⟨i, h⟩).cumulative_pnl_pct =
        c + ((ts.take (i + 1)).map (fun u => u.pnl_pct)).sum
  | [], _ => by intro _ i h; simp at h
  | t :: ts, c => by
    intro hc i h
    obtain ⟨h1, h2⟩ := hc
    cases i with
    | zero => simpa using h1
    | succ i =>
      have ih := cumOk_get ts (c + t.pnl_pct) h2 i (by simpa using h)
      simp only [List.get_cons_succ, List.take_succ_cons, List.map_cons, List.sum_cons]
      rw [ih]
      ring

/-- Cumulative-sum correctness gives the total-sum reading at the last trade. -/
theorem cumOk_getLast : ∀ (ts : List Trade) (c : ℚ), cumOk c ts → ∀ h : ts ≠ [],
    (ts.getLast h).cumulative_pnl_pct = c + (ts.map (fun u => u.pnl_pct)).sum
  | [], _ => by intro _ h; exact absurd rfl h
  | [t], c => by
    intro hc _
    have h1 := hc.1
    simp [List.getLast]
    rw [h1]
  | t :: u :: ts, c => by
    intro hc h
    obtain ⟨h1, h2⟩ := hc
    have ih := cumOk_getLast (u :: ts) (c + t.pnl_pct) h2 (by simp)
    rw [List.getLast_cons (by simp), ih]
    simp only [List.map_cons, List.sum_cons]
    ring

/-- Cumulative-sum correctness is carried through the whole fold, together
with the running-sum reading of the engine's accumulator. -/
theorem engFold_cum (side : Side) (es xs : Option ℚ → ℚ → Bool) :
    ∀ (l : List (Bar × ℚ)) (st : EngineState),
      cumOk 0 st.trades → st.cum = (st.trades.map (fun t => t.pnl_pct)).sum →
      cumOk 0 (l.foldl (engStep side es xs) st).trades ∧
        (l.foldl (engStep side es xs) st).cum =
          ((l.foldl (engStep side es xs) st).trades.map (fun t => t.pnl_pct)).sum := by
  intro l
  induction l with
  | nil => intro st h1 h2; exact ⟨h1, h2⟩
  | cons br rest ih =>
    intro st h1 h2
    rw [List.foldl_cons]
    rcases br with ⟨bar, r⟩
    cases hp : st.pos with
    | some p =>
      cases hx : xs st.prevRsi r with
      | true =>
        rw [show engStep side es xs st (bar, r) = runStep side es xs st bar r from rfl,
          runStep_open_exit hp hx]
        refine ih _ ?_ ?_
        · refine cumOk_append st.trades 0 _ h1 ?_
          simp [h2]
        · simp [h2]
      | false =>
        rw [show engStep side es xs st (bar, r) = runStep side es xs st bar r from rfl,
          runStep_open_hold hp hx]
        exact ih _ h1 h2
    | none =>
      cases he : es st.prevRsi r with
      | true =>
        rw [show engStep side es xs st (bar, r) = runStep side es xs st bar r from rfl,
          runStep_flat_entry hp he]
        exact ih _ h1 h2
      | false =>
        rw [show engStep side es xs st (bar, r) = runStep side es xs st bar r from rfl,
          runStep_flat_hold hp he]
        exact ih _ h1 h2

/-- The drawdown scan is a fold of max over the pointwise drawdown list. -/
theorem mddAux_eq_foldl : ∀ (xs : List ℚ) (peak best : ℚ),
    mddAux peak best xs = (ddFrom peak xs).foldl max best
  | [], _, _ => rfl
  | x :: xs, peak, best => by
    simp only [mddAux, ddFrom, List.foldl_cons]
    exact mddAux_eq_foldl xs (max peak x) (max best (max peak x - x))

/-- The pointwise drawdown list has one entry per curve point. -/
theorem ddFrom_length : ∀ (xs : List ℚ) (peak : ℚ), (ddFrom peak xs).length = xs.length
  | [], _ => rfl
  | x :: xs, peak => by
    simp only [ddFrom, List.length_cons]
    rw [ddFrom_length xs (max peak x)]

/-- Each entry of the pointwise drawdown list is prefix-max minus the point. -/
theorem ddFrom_getElem : ∀ (xs : List ℚ) (peak : ℚ) (i : ℕ) (h : i < xs.length),
    (ddFrom peak xs).get ⟨i, by rw [ddFrom_length]; exact h⟩ =
      (xs.take (i + 1)).foldl max peak - xs.get ⟨i, h⟩
  | [], _, i, h => by simp at h
  | x :: xs, peak, 0, _ => by
    simp [ddFrom]
  | x :: xs, peak, i + 1, h => by
    have ih := ddFrom_getElem xs (max peak x) i (by simpa using h)
    simp only [ddFrom, List.get_cons_succ, List.take_succ_cons, List.foldl_cons]
    exact ih

/-- A fold of max never goes below its initial value. -/
theorem le_foldl_max : ∀ (l : List ℚ) (b : ℚ), b ≤ l.foldl max b
  | [], _ => le_refl _
  | x :: l, b => by
    simp only [List.foldl_cons]
    exact le_trans (le_max_left b x) (le_foldl_max l (max b x))

/-- On a non-decreasing curve the drawdown scan stays at zero. -/
theorem mddAux_zero_of_chain : ∀ (xs : List ℚ) (x : ℚ),
    List.Chain' (fun a b => a ≤ b) (x :: xs) → mddAux x 0 xs = 0
  | [], _, _ => rfl
  | y :: ys, x, h => by
    rw [List.chain'_cons] at h
    have hxy : max x y = y := max_eq_right h.1
    simp only [mddAux, hxy]
    rw [sub_self, max_self]
    exact mddAux_zero_of_chain ys y h.2

/-- The operational maximum drawdown equals the spec-worded one: the maximum
over all curve points of (running peak minus current value). -/
theorem maxDrawdown_eq_spec : ∀ curve : List ℚ, maxDrawdown curve = specMaxDrawdown curve
  | [] => rfl
  | x :: xs => by
    have hdd : ddFrom x xs =
        (List.range xs.length).map
          (fun i => ((x :: xs).take (i + 1 + 1)).foldl max x - (x :: xs).getD (i + 1) 0) := by
      refine List.ext_getElem (by rw [ddFrom_length]; simp) ?_
      intro n h1 h2
      rw [List.getElem_map, List.getElem_range]
      have hn : n < xs.length := by rw [ddFrom_length] at h1; exact h1
      rw [List.take_succ_cons, List.foldl_cons, max_self]
      rw [show (x :: xs).getD (n + 1) 0 = xs.getD n 0 from rfl,
        List.getD_eq_getElem xs 0 hn]
      exact ddFrom_getElem xs x n hn
    show mddAux x 0 xs = specMaxDrawdown (x :: xs)
    rw [mddAux_eq_foldl, specMaxDrawdown]
    simp only [List.length_cons, List.range_succ_eq_map, List.map_cons, List.foldl_cons]
    rw [show drawdownAt (x :: xs) 0 = 0 by simp [drawdownAt, runningPeak]]
    rw [max_self]
    congr 1
    rw [hdd, List.map_map]
    refine List.map_congr_left ?_
    intro i hi
    simp only [Function.comp_apply, drawdownAt, runningPeak]
    rw [List.take_succ_cons, List.foldl_cons, max_self]

/-- The gain part of a delta is non-negative. -/
theorem gainOf_nonneg (d : ℚ) : 0 ≤ gainOf d := by
  unfold gainOf
  split <;> linarith

/-- The loss part of a delta is non-negative. -/
theorem lossOf_nonneg (d : ℚ) : 0 ≤ lossOf d := by
  unfold lossOf
  split <;> linarith

/-- The gain part of a negative delta is zero. -/
theorem gainOf_of_neg {d : ℚ} (h : d < 0) : gainOf d = 0 := by
  unfold gainOf
  split
  · linarith
  · rfl

/-- The loss part of a negative delta is positive. -/
theorem lossOf_of_neg {d : ℚ} (h : d < 0) : 0 < lossOf d := by
  unfold lossOf
  split <;> linarith

/-- The RSI point value is bounded within [0, 100] for non-negative averages. -/
theorem rsiValue_bounds {ag al : ℚ} (hag : 0 ≤ ag) (hal : 0 ≤ al) :
    0 ≤ rsiValue ag al ∧ rsiValue ag al ≤ 100 := by
  unfold rsiValue
  split
  · norm_num
  · split
    · norm_num
    · rename_i hboth hl
      have hal' : 0 < al := lt_of_le_of_ne hal (Ne.symm hl)
      have hratio : 0 ≤ ag / al := div_nonneg hag (le_of_lt hal')
      have hden : (1 : ℚ) ≤ 1 + ag / al := by linarith
      have h1 : 100 / (1 + ag / al) ≤ 100 := div_le_self (by norm_num) hden
      have h2 : 0 < 100 / (1 + ag / al) := div_pos (by norm_num) (by linarith)
      constructor <;> linarith

/-- A positive average gain with zero average loss gives RSI 100. -/
theorem rsiValue_no_loss {ag : ℚ} (h : 0 < ag) : rsiValue ag 0 = 100 := by
  unfold rsiValue
  have : ¬(ag = 0 ∧ (0 : ℚ) = 0) := fun hc => absurd hc.1 (ne_of_gt h)
  rw [if_neg this, if_pos rfl]

/-- Zero average gain and zero average loss give RSI 50. -/
theorem rsiValue_no_move : rsiValue 0 0 = 50 := by
  unfold rsiValue
  rw [if_pos ⟨rfl, rfl⟩]

/-- Zero average gain with positive average loss gives RSI 0. -/
theorem rsiValue_all_loss {al : ℚ} (h : 0 < al) : rsiValue 0 al = 0 := by
  unfold rsiValue
  have h1 : ¬((0 : ℚ) = 0 ∧ al = 0) := fun hc => absurd hc.2 (ne_of_gt h)
  rw [if_neg h1, if_neg (ne_of_gt h), zero_div, add_zero, div_one]
  norm_num

/-- Every point of a Wilder-smoothed average of non-negative inputs is
non-negative. -/
theorem wilder_mem_nonneg {p : ℕ} (hp : 1 ≤ p) (ds : List ℚ)
    (hds : ∀ x ∈ ds, 0 ≤ x) :
    ∀ y ∈ List.scanl (wilderStep p) ((ds.take p).sum / (p : ℚ)) (ds.drop p), 0 ≤ y := by
  refine scanl_mem_pred (fun a => 0 ≤ a) (wilderStep p) (ds.drop p) _ ?_ ?_
  · refine div_nonneg (List.sum_nonneg ?_) (Nat.cast_nonneg p)
    exact fun x hx => hds x (List.mem_of_mem_take hx)
  · intro a x ha hx
    have hx' : 0 ≤ x := hds x (List.mem_of_mem_drop hx)
    have hp' : (1 : ℚ) ≤ (p : ℚ) := by exact_mod_cast hp
    refine div_nonneg ?_ (by linarith)
    have : 0 ≤ a * ((p : ℚ) - 1) := mul_nonneg ha (by linarith)
    linarith

/-- Every point of a Wilder-smoothed average of all-zero inputs is zero. -/
theorem wilder_mem_zero {p : ℕ} (ds : List ℚ) (hds : ∀ x ∈ ds, x = 0) :
    ∀ y ∈ List.scanl (wilderStep p) ((ds.take p).sum / (p : ℚ)) (ds.drop p), y = 0 := by
  refine scanl_mem_pred (fun a => a = 0) (wilderStep p) (ds.drop p) _ ?_ ?_
  · rw [List.sum_eq_zero (fun x hx => hds x (List.mem_of_mem_take hx)), zero_div]
  · intro a x ha hx
    rw [ha, hds x (List.mem_of_mem_drop hx)]
    simp [wilderStep]

/-- Every point of a Wilder-smoothed average of positive inputs is positive,
when at least one full warm-up window is available. -/
theorem wilder_mem_pos {p : ℕ} (hp : 1 ≤ p) (ds : List ℚ) (hlen : p ≤ ds.length)
    (hds : ∀ x ∈ ds, 0 < x) :
    ∀ y ∈ List.scanl (wilderStep p) ((ds.take p).sum / (p : ℚ)) (ds.drop p), 0 < y := by
  have hpq : (0 : ℚ) < (p : ℚ) := by exact_mod_cast lt_of_lt_of_le Nat.zero_lt_one hp
  refine scanl_mem_pred (fun a => 0 < a) (wilderStep p) (ds.drop p) _ ?_ ?_
  · refine div_pos (List.sum_pos _ (fun x hx => hds x (List.mem_of_mem_take hx)) ?_) hpq
    have : (ds.take p).length = p := by
      rw [List.length_take]
      omega
    intro hnil
    rw [hnil] at this
    simp at this
    omega
  · intro a x ha hx
    have hx' : 0 < x := hds x (List.mem_of_mem_drop hx)
    have hp' : (1 : ℚ) ≤ (p : ℚ) := by exact_mod_cast hp
    refine div_pos ?_ hpq
    have : 0 ≤ a * ((p : ℚ) - 1) := mul_nonneg (le_of_lt ha) (by linarith)
    linarith

/-- A successful rsi call pins down the parameter constraints. -/
theorem rsi_ok_param {closes : List ℚ} {p : ℕ} {out : List (Option ℚ)}
    (hok : rsi closes p = .ok out) : 1 ≤ p ∧ p < closes.length := by
  by_contra hc
  have hcond : p < 1 ∨ closes.length ≤ p := by omega
  rw [rsi, if_pos hcond] at hok
  exact Except.noConfusion hok

/-- A successful rsi call returns the warm-up prefix followed by the
pointwise RSI of the two smoothed averages. -/
theorem rsi_ok_eq {closes : List ℚ} {p : ℕ} {out : List (Option ℚ)}
    (hok : rsi closes p = .ok out) :
    out = List.replicate p none ++
      List.zipWith (fun g l => some (rsiValue g l))
        (List.scanl (wilderStep p)
          (((((deltas closes).map gainOf)).take p).sum / (p : ℚ))
          (((deltas closes).map gainOf).drop p))
        (List.scanl (wilderStep p)
          (((((deltas closes).map lossOf)).take p).sum / (p : ℚ))
          (((deltas closes).map lossOf).drop p)) := by
  obtain ⟨h1, h2⟩ := rsi_ok_param hok
  have hcond : ¬(p < 1 ∨ closes.length ≤ p) := by omega
  rw [rsi, if_neg hcond] at hok
  exact (Except.ok.inj hok).symm

/-- Every defined entry of a successful rsi output is the RSI point value of a
member of each smoothed-average sequence. -/
theorem rsi_out_mem {closes : List ℚ} {p : ℕ} {out : List (Option ℚ)}
    (hok : rsi closes p = .ok out) (v : ℚ) (hv : some v ∈ out) :
    ∃ g l,
      g ∈ List.scanl (wilderStep p)
        (((((deltas closes).map gainOf)).take p).sum / (p : ℚ))
        (((deltas closes).map gainOf).drop p) ∧
      l ∈ List.scanl (wilderStep p)
        (((((deltas closes).map lossOf)).take p).sum / (p : ℚ))
        (((deltas closes).map lossOf).drop p) ∧
      v = rsiValue g l := by
  rw [rsi_ok_eq hok] at hv
  rcases List.mem_append.mp hv with hv | hv
  · exact absurd (List.eq_of_mem_replicate hv) (by simp)
  · rcases mem_zipWith_elim hv with ⟨g, l, hg, hl, hc⟩
    exact ⟨g, l, hg, hl, Option.some.inj hc⟩

/-- Out of attempts: the loop raises the runtime error with the last message. -/
theorem fetchAux_zero (oracle : ℕ → DownloadResult) (a : ℕ) (last : Option String) :
    fetchAux oracle 0 a last = (.error (retriesMsg last), []) := rfl

/-- A successful attempt returns its processed frame at once, with no sleep. -/
theorem fetchAux_ok_step (oracle : ℕ → DownloadResult) (n a : ℕ)
    (last : Option String) (df : List RawRow)
    (h : attemptDownload (oracle a) = .ok df) :
    fetchAux oracle (n + 1) a last = (.ok df, []) := by
  simp [fetchAux, h]

/-- A failed attempt sleeps and retries with the error recorded. -/
theorem fetchAux_err_step (oracle : ℕ → DownloadResult) (n a : ℕ)
    (last : Option String) (e : String)
    (h : attemptDownload (oracle a) = .error e) :
    fetchAux oracle (n + 1) a last =
      ((fetchAux oracle n (a + 1) (some e)).1,
        15 * (a + 1) :: (fetchAux oracle n (a + 1) (some e)).2) := by
  simp [fetchAux, h]

/-- An Except value that is not ok is some error. -/
theorem except_error_of_not_ok {ε α : Type _} (x : Except ε α) (h : x.isOk = false) :
    ∃ e, x = .error e := by
  cases x with
  | error e => exact ⟨e, rfl⟩
  | ok a => simp [Except.isOk, Except.toBool] at h

/-- C1: in mean-reversion mode the backtest opens a long position at a bar's
close exactly when flat and that bar's RSI is strictly below the lower
threshold, closes at a bar's close exactly when long and that bar's RSI is
strictly above the exit level, and every emitted Trade is long with
pnl_pct = (exit_price - entry_price)/entry_price * 100. -/
theorem claim1_mean_reversion_rules
    (lo ex : ℚ) (st : EngineState) (bar : Bar) (r : ℚ)
    (bars : List Bar) (rsis : List ℚ) (cfg : StrategyConfig)
    (hmode : cfg.mode = .mean_reversion) (hlo : cfg.lower = some lo)
    (hex : cfg.exit_level = some ex)
    (s : StrategySummary) (ts : List Trade)
    (hrun : backtest bars rsis cfg = .ok (s, ts)) :
    (st.pos = none →
      ((runStep .long (mrEntry lo) (mrExit ex) st bar r).pos.isSome = true ↔ r < lo) ∧
      (r < lo → runStep .long (mrEntry lo) (mrExit ex) st bar r =
        { st with pos := some { entry_time := bar.time, entry_price := bar.close },
                  prevRsi := some r })) ∧
    (∀ p : OpenPos, st.pos = some p →
      ((runStep .long (mrEntry lo) (mrExit ex) st bar r).pos = none ↔ ex < r) ∧
      (ex < r → (runStep .long (mrEntry lo) (mrExit ex) st bar r).trades =
        st.trades ++
          [{ entry_time := p.entry_time, entry_price := p.entry_price,
             exit_time := bar.time, exit_price := bar.close, side := .long,
             pnl_pct := (bar.close - p.entry_price) / p.entry_price * 100,
             cumulative_pnl_pct :=
               st.cum + (bar.close - p.entry_price) / p.entry_price * 100 }])) ∧
    (∀ t ∈ ts, t.side = .long ∧
      t.pnl_pct = (t.exit_price - t.entry_price) / t.entry_price * 100) := by
  refine ⟨?_, ?_, ?_⟩
  · intro hp
    constructor
    · by_cases hr : r < lo
      · rw [runStep_flat_entry hp (by simp [mrEntry, hr])]
        simpa using hr
      · rw [runStep_flat_hold hp (by simp [mrEntry, hr])]
        simp [hp, hr]
    · intro hr
      rw [runStep_flat_entry hp (by simp [mrEntry, hr])]
  · intro p hp
    constructor
    · by_cases hr : ex < r
      · rw [runStep_open_exit hp (by simp [mrExit, hr])]
        simpa using hr
      · rw [runStep_open_hold hp (by simp [mrExit, hr])]
        simp [hp, hr]
    · intro hr
      rw [runStep_open_exit hp (by simp [mrExit, hr])]
      simp [pnlOf]
  · have hsig : engineSigs cfg = some (.long, mrEntry lo, mrExit ex) := by
      simp [engineSigs, hmode, hlo, hex]
    unfold backtest at hrun
    rw [hsig] at hrun
    have h := Except.ok.inj hrun
    have hts : runEngine .long (mrEntry lo) (mrExit ex) bars rsis = ts :=
      congrArg Prod.snd h
    intro t ht
    rw [← hts] at ht
    have hshape := engFold_shape .long (mrEntry lo) (mrExit ex)
      (bars.zip rsis) initState (by intro u hu; simp [initState] at hu) t ht
    exact ⟨hshape.1, by rw [hshape.2]; rfl⟩

/-- Witness for C1 on a concrete run: an entry bar with RSI 20 below the lower
threshold 30 opens the position, and the hypotheses are discharged at a
concrete backtest that returns one trade. -/
theorem claim1_witness :
    (runStep Side.long (mrEntry 30) (mrExit 50) initState
      { time := 0, close := 10 } 20).pos.isSome = true := by
  have h := claim1_mean_reversion_rules 30 50 initState { time := 0, close := 10 } 20
    [{ time := 0, close := 10 }, { time := 1, close := 12 }] [20, 60]
    { name := "Mean Reversion", mode := Mode.mean_reversion, lower := some 30,
      upper := none, exit_level := some 50 }
    rfl rfl rfl
    { total_trades := 1, total_pnl_pct := 20, win_rate_pct := 100,
      avg_pnl_pct := 20, max_drawdown_pct := 0 }
    [{ entry_time := 0, entry_price := 10, exit_time := 1, exit_price := 12,
       side := Side.long, pnl_pct := 20, cumulative_pnl_pct := 20 }]
    (by norm_num [backtest, engineSigs, runEngine, finalState, engStep, runStep,
      initState, mrEntry, mrExit, summarize, maxDrawdown, mddAux, pnlOf])
  exact (h.1 rfl).1.mpr (by norm_num)

/-- C2: at most one position is open (the engine state holds a single
optional position), and a position never opens and closes within the same
bar: a step from flat emits no trade, a step with an open position either
keeps it or closes it (never opens a new one), and in every backtest run over
strictly increasing timestamps each trade entered strictly before it exited. -/
theorem claim2_no_same_bar_open_close
    (side : Side) (esig xsig : Option ℚ → ℚ → Bool) (st : EngineState)
    (bar : Bar) (r : ℚ)
    (bars : List Bar) (rsis : List ℚ) (cfg : StrategyConfig)
    (s : StrategySummary) (ts : List Trade)
    (hsort : bars.Pairwise (fun a b => a.time < b.time))
    (hrun : backtest bars rsis cfg = .ok (s, ts)) :
    (st.pos = none → (runStep side esig xsig st bar r).trades = st.trades) ∧
    (∀ p : OpenPos, st.pos = some p →
      (runStep side esig xsig st bar r).pos = none ∨
      (runStep side esig xsig st bar r).pos = some p) ∧
    (∀ t ∈ ts, t.entry_time < t.exit_time) := by
  refine ⟨?_, ?_, ?_⟩
  · intro hp
    cases he : esig st.prevRsi r with
    | true => rw [runStep_flat_entry hp he]
    | false => rw [runStep_flat_hold hp he]
  · intro p hp
    cases hx : xsig st.prevRsi r with
    | true =>
      left
      rw [runStep_open_exit hp hx]
    | false =>
      right
      rw [runStep_open_hold hp hx]
      exact hp
  · unfold backtest at hrun
    rcases hsig : engineSigs cfg with _ | ⟨sd, es, xs⟩ <;> rw [hsig] at hrun
    · exact absurd hrun (by simp)
    · have h := Except.ok.inj hrun
      have hts : runEngine sd es xs bars rsis = ts := congrArg Prod.snd h
      intro t ht
      rw [← hts] at ht
      exact ((finalState_inv sd es xs bars rsis hsort).2 t ht).1

/-- Witness for C2 on a concrete run: a step from flat emits no trade, with
hypotheses discharged at a concrete sorted backtest. -/
theorem claim2_witness :
    (runStep Side.long (mrEntry 30) (mrExit 50) initState
      { time := 0, close := 10 } 20).trades = initState.trades := by
  have h := claim2_no_same_bar_open_close Side.long (mrEntry 30) (mrExit 50)
    initState { time := 0, close := 10 } 20
    [{ time := 0, close := 10 }, { time := 1, close := 12 }] [20, 60]
    { name := "Mean Reversion", mode := Mode.mean_reversion, lower := some 30,
      upper := none, exit_level := some 50 }
    { total_trades := 1, total_pnl_pct := 20, win_rate_pct := 100,
      avg_pnl_pct := 20, max_drawdown_pct := 0 }
    [{ entry_time := 0, entry_price := 10, exit_time := 1, exit_price := 12,
       side := Side.long, pnl_pct := 20, cumulative_pnl_pct := 20 }]
    (by simp)
    (by norm_num [backtest, engineSigs, runEngine, finalState, engStep, runStep,
      initState, mrEntry, mrExit, summarize, maxDrawdown, mddAux, pnlOf])
  exact h.1 rfl

/-- C3: a backtest over a valid config never errors; it returns exactly the
closed trades together with their summary, and a position still open when the
last bar has been processed contributes no Trade record (no emitted trade
carries its entry time, under strictly increasing timestamps). -/
theorem claim3_open_position_discarded
    (bars : List Bar) (rsis : List ℚ) (cfg : StrategyConfig)
    (sd : Side) (es xs : Option ℚ → ℚ → Bool)
    (hsig : engineSigs cfg = some (sd, es, xs))
    (hsort : bars.Pairwise (fun a b => a.time < b.time)) :
    backtest bars rsis cfg =
      .ok (summarize (runEngine sd es xs bars rsis), runEngine sd es xs bars rsis) ∧
    (∀ p : OpenPos, (finalState sd es xs bars rsis).pos = some p →
      ∀ t ∈ runEngine sd es xs bars rsis, t.entry_time ≠ p.entry_time) := by
  constructor
  · unfold backtest
    rw [hsig]
  · intro p hp t ht
    have hinv := (finalState_inv sd es xs bars rsis hsort).1 p hp
    exact ne_of_lt (hinv.2 t ht)

/-- Witness for C3 on a concrete run whose final position is still open (the
single bar has RSI 20 below the lower threshold 30, so a long opens and the
series ends): the backtest returns the closed-trade list and its summary. -/
theorem claim3_witness :
    backtest [{ time := 0, close := 10 }] [20]
      { name := "Mean Reversion", mode := Mode.mean_reversion, lower := some 30,
        upper := none, exit_level := some 50 } =
      .ok (summarize (runEngine Side.long (mrEntry 30) (mrExit 50)
            [{ time := 0, close := 10 }] [20]),
           runEngine Side.long (mrEntry 30) (mrExit 50)
            [{ time := 0, close := 10 }] [20]) := by
  exact (claim3_open_position_discarded [{ time := 0, close := 10 }] [20]
    { name := "Mean Reversion", mode := Mode.mean_reversion, lower := some 30,
      upper := none, exit_level := some 50 }
    Side.long (mrEntry 30) (mrExit 50) rfl (by simp)).1

/-- C4: in every trade list emitted by a backtest the cumulative_pnl_pct of
the i-th trade is the sum of pnl_pct over the first i+1 trades in emission
order, and for a non-empty list the last trade's cumulative_pnl_pct equals
the Summarizer's total_pnl_pct on the same list. -/
theorem claim4_cumulative_prefix_sums
    (bars : List Bar) (rsis : List ℚ) (cfg : StrategyConfig)
    (s : StrategySummary) (ts : List Trade)
    (hrun : backtest bars rsis cfg = .ok (s, ts)) :
    (∀ i (hi : i < ts.length),
      (ts.get ⟨i, hi⟩).cumulative_pnl_pct =
        ((ts.take (i + 1)).map (fun t => t.pnl_pct)).sum) ∧
    (∀ h : ts ≠ [],
      (ts.getLast h).cumulative_pnl_pct = (summarize ts).total_pnl_pct) := by
  unfold backtest at hrun
  rcases hsig : engineSigs cfg with _ | ⟨sd, es, xs⟩ <;> rw [hsig] at hrun
  · exact absurd hrun (by simp)
  · have h := Except.ok.inj hrun
    have hts : runEngine sd es xs bars rsis = ts := congrArg Prod.snd h
    have hcum := (engFold_cum sd es xs (bars.zip rsis) initState
      (by simp [initState, cumOk]) (by simp [initState])).1
    rw [show ((bars.zip rsis).foldl (engStep sd es xs) initState).trades =
        runEngine sd es xs bars rsis from rfl, hts] at hcum
    constructor
    · intro i hi
      rw [cumOk_get ts 0 hcum i hi, zero_add]
    · intro hne
      rw [cumOk_getLast ts 0 hcum hne, zero_add]
      rfl

/-- Witness for C4: on a concrete backtest emitting one trade, the last
trade's cumulative P&L equals the Summarizer's total. -/
theorem claim4_witness :
    (([{ entry_time := 0, entry_price := 10, exit_time := 1, exit_price := 12,
         side := Side.long, pnl_pct := 20, cumulative_pnl_pct := 20 }] :
        List Trade).getLast (by simp)).cumulative_pnl_pct =
      (summarize [{ entry_time := 0, entry_price := 10, exit_time := 1,
                    exit_price := 12, side := Side.long, pnl_pct := 20,
                    cumulative_pnl_pct := 20 }]).total_pnl_pct := by
  have h := claim4_cumulative_prefix_sums
    [{ time := 0, close := 10 }, { time := 1, close := 12 }] [20, 60]
    { name := "Mean Reversion", mode := Mode.mean_reversion, lower := some 30,
      upper := none, exit_level := some 50 }
    { total_trades := 1, total_pnl_pct := 20, win_rate_pct := 100,
      avg_pnl_pct := 20, max_drawdown_pct := 0 }
    [{ entry_time := 0, entry_price := 10, exit_time := 1, exit_price := 12,
       side := Side.long, pnl_pct := 20, cumulative_pnl_pct := 20 }]
    (by norm_num [backtest, engineSigs, runEngine, finalState, engStep, runStep,
      initState, mrEntry, mrExit, summarize, maxDrawdown, mddAux, pnlOf])
  exact h.2 (by simp)

/-- C5: the Summarizer on an empty trade list returns the all-zero summary
rather than an error: every field is 0, with the ratio fields defined as 0
instead of dividing by a zero trade count. -/
theorem claim5_empty_summary :
    summarize [] =
      { total_trades := 0, total_pnl_pct := 0, win_rate_pct := 0,
        avg_pnl_pct := 0, max_drawdown_pct := 0 } := rfl

/-- C6: the Summarizer's max_drawdown_pct is exactly the maximum over the
chronological cumulative P&L curve of (running peak minus current value),
reported as a non-negative magnitude, and it is 0 on an empty list and on any
monotonically non-decreasing curve. -/
theorem claim6_max_drawdown (ts : List Trade) :
    (summarize ts).max_drawdown_pct =
      specMaxDrawdown (ts.map (fun t => t.cumulative_pnl_pct)) ∧
    0 ≤ (summarize ts).max_drawdown_pct ∧
    (ts = [] → (summarize ts).max_drawdown_pct = 0) ∧
    (List.Chain' (fun a b => a ≤ b) (ts.map (fun t => t.cumulative_pnl_pct)) →
      (summarize ts).max_drawdown_pct = 0) := by
  have hmdd : (summarize ts).max_drawdown_pct =
      maxDrawdown (ts.map (fun t => t.cumulative_pnl_pct)) := rfl
  refine ⟨?_, ?_, ?_, ?_⟩
  · rw [hmdd, maxDrawdown_eq_spec]
  · rw [hmdd]
    cases hc : ts.map (fun t => t.cumulative_pnl_pct) with
    | nil => simp [maxDrawdown]
    | cons x xs =>
      show 0 ≤ mddAux x 0 xs
      rw [mddAux_eq_foldl]
      exact le_foldl_max (ddFrom x xs) 0
  · intro h
    rw [h]
    rfl
  · intro hchain
    rw [hmdd]
    cases hc : ts.map (fun t => t.cumulative_pnl_pct) with
    | nil => simp [maxDrawdown]
    | cons x xs =>
      show mddAux x 0 xs = 0
      rw [hc] at hchain
      exact mddAux_zero_of_chain xs x hchain

/-- Witness for C6 at a concrete curve that rises then falls: the gap between
the peak 30 and the later value 5 is reported. -/
theorem claim6_witness :
    (summarize
      [{ entry_time := 0, entry_price := 10, exit_time := 1, exit_price := 13,
         side := Side.long, pnl_pct := 30, cumulative_pnl_pct := 30 },
       { entry_time := 2, entry_price := 10, exit_time := 3, exit_price := 7.5,
         side := Side.long, pnl_pct := -25, cumulative_pnl_pct := 5 }]).max_drawdown_pct =
      specMaxDrawdown [30, 5] := by
  have h := claim6_max_drawdown
    [{ entry_time := 0, entry_price := 10, exit_time := 1, exit_price := 13,
       side := Side.long, pnl_pct := 30, cumulative_pnl_pct := 30 },
     { entry_time := 2, entry_price := 10, exit_time := 3, exit_price := 7.5,
       side := Side.long, pnl_pct := -25, cumulative_pnl_pct := 5 }]
  simpa using h.1

/-- C7: rsi fails with InvalidParameter exactly when period < 1 or
period ≥ length closes; otherwise it returns a sequence of the input's
length whose first period entries are undefined and whose remaining entries
are all defined. -/
theorem claim7_rsi_contract (closes : List ℚ) (p : ℕ) :
    ((rsi closes p).isOk = false ↔ (p < 1 ∨ closes.length ≤ p)) ∧
    ((rsi closes p).isOk = false → rsi closes p = .error .invalidParameter) ∧
    (∀ out, rsi closes p = .ok out →
      out.length = closes.length ∧
      (∀ i, i < p → out.getD i (some 0) = none) ∧
      (∀ i, p ≤ i → i < closes.length → (out.getD i none).isSome = true)) := by
  refine ⟨?_, ?_, ?_⟩
  · by_cases hcond : p < 1 ∨ closes.length ≤ p
    · rw [rsi, if_pos hcond]
      simpa [Except.isOk, Except.toBool] using hcond
    · rw [rsi, if_neg hcond]
      simpa [Except.isOk, Except.toBool] using hcond
  · intro hfail
    by_cases hcond : p < 1 ∨ closes.length ≤ p
    · rw [rsi, if_pos hcond]
    · rw [rsi, if_neg hcond] at hfail
      simp [Except.isOk, Except.toBool] at hfail
  · intro out hok
    obtain ⟨h1, h2⟩ := rsi_ok_param hok
    have hlen : out.length = closes.length := by
      rw [rsi_ok_eq hok]
      simp only [List.length_append, List.length_replicate, List.length_zipWith,
        List.length_scanl, List.length_drop, List.length_map, deltas_length]
      omega
    refine ⟨hlen, ?_, ?_⟩
    · intro i hi
      rw [rsi_ok_eq hok]
      rw [List.getD_append _ _ _ i (by simpa using hi)]
      rw [List.getD_eq_getElem _ _ (by simpa using hi), List.getElem_replicate]
    · intro i hpi hin
      rw [rsi_ok_eq hok]
      rw [List.getD_append_right _ _ _ i (by simpa using hpi)]
      have hzlen : i - p <
          (List.zipWith (fun g l => some (rsiValue g l))
            (List.scanl (wilderStep p)
              (((((deltas closes).map gainOf)).take p).sum / (p : ℚ))
              (((deltas closes).map gainOf).drop p))
            (List.scanl (wilderStep p)
              (((((deltas closes).map lossOf)).take p).sum / (p : ℚ))
              (((deltas closes).map lossOf).drop p))).length := by
        simp only [List.length_zipWith, List.length_scanl, List.length_drop,
          List.length_map, deltas_length]
        omega
      rw [List.length_replicate, List.getD_eq_getElem _ _ hzlen,
        List.getElem_zipWith]
      rfl

/-- Witness for C7: the full contract applied at a concrete valid input. -/
theorem claim7_witness :
    (rsi [1, 2, 3] 1 = .ok [none, some 100, some 100]) ∧
    ([(none : Option ℚ), some 100, some 100].length = 3) := by
  have heq : rsi [1, 2, 3] 1 = .ok [none, some 100, some 100] := by
    norm_num [rsi, deltas, gainOf, lossOf, wilderStep, rsiValue, List.scanl]
  have h := (claim7_rsi_contract [1, 2, 3] 1).2.2 [none, some 100, some 100] heq
  exact ⟨heq, h.1⟩

/-- C8: on every valid input the defined RSI values use the division-free
edge cases (zero loss with positive gain gives 100, zero gain and loss give
50), every defined value is bounded within [0, 100], a constant-price series
gives 50 at every defined index, and a strictly decreasing series gives 0 at
every defined index. -/
theorem claim8_rsi_edge_cases (closes : List ℚ) (p : ℕ) (out : List (Option ℚ))
    (hok : rsi closes p = .ok out) :
    (∀ g : ℚ, 0 < g → rsiValue g 0 = 100) ∧
    rsiValue 0 0 = 50 ∧
    (∀ v : ℚ, some v ∈ out → 0 ≤ v ∧ v ≤ 100) ∧
    ((∃ c, ∀ x ∈ closes, x = c) → ∀ v : ℚ, some v ∈ out → v = 50) ∧
    (List.Chain' (fun a b => b < a) closes → ∀ v : ℚ, some v ∈ out → v = 0) := by
  obtain ⟨h1, h2⟩ := rsi_ok_param hok
  refine ⟨fun g hg => rsiValue_no_loss hg, rsiValue_no_move, ?_, ?_, ?_⟩
  · intro v hv
    obtain ⟨g, l, hg, hl, rfl⟩ := rsi_out_mem hok v hv
    have hgn : 0 ≤ g := wilder_mem_nonneg h1 ((deltas closes).map gainOf)
      (fun x hx => by
        obtain ⟨d, _, rfl⟩ := List.mem_map.mp hx
        exact gainOf_nonneg d) g hg
    have hln : 0 ≤ l := wilder_mem_nonneg h1 ((deltas closes).map lossOf)
      (fun x hx => by
        obtain ⟨d, _, rfl⟩ := List.mem_map.mp hx
        exact lossOf_nonneg d) l hl
    exact rsiValue_bounds hgn hln
  · rintro ⟨c, hc⟩ v hv
    obtain ⟨g, l, hg, hl, rfl⟩ := rsi_out_mem hok v hv
    have hds := deltas_mem_const closes hc
    have hg0 : g = 0 := wilder_mem_zero ((deltas closes).map gainOf)
      (fun x hx => by
        obtain ⟨d, hd, rfl⟩ := List.mem_map.mp hx
        simp [gainOf, hds d hd]) g hg
    have hl0 : l = 0 := wilder_mem_zero ((deltas closes).map lossOf)
      (fun x hx => by
        obtain ⟨d, hd, rfl⟩ := List.mem_map.mp hx
        simp [lossOf, hds d hd]) l hl
    rw [hg0, hl0]
    exact rsiValue_no_move
  · intro hch v hv
    obtain ⟨g, l, hg, hl, rfl⟩ := rsi_out_mem hok v hv
    have hds := deltas_mem_dec closes hch
    have hg0 : g = 0 := wilder_mem_zero ((deltas closes).map gainOf)
      (fun x hx => by
        obtain ⟨d, hd, rfl⟩ := List.mem_map.mp hx
        exact gainOf_of_neg (hds d hd)) g hg
    have hlpos : 0 < l := wilder_mem_pos h1 ((deltas closes).map lossOf)
      (by
        rw [List.length_map, deltas_length]
        omega)
      (fun x hx => by
        obtain ⟨d, hd, rfl⟩ := List.mem_map.mp hx
        exact lossOf_of_neg (hds d hd)) l hl
    rw [hg0]
    exact rsiValue_all_loss hlpos

/-- Witness for C8 at a strictly decreasing concrete input, with the
division-free no-movement case extracted from the theorem. -/
theorem claim8_witness :
    (rsi [3, 2, 1] 1 = .ok [none, some 0, some 0]) ∧ rsiValue 0 0 = 50 := by
  have heq : rsi [3, 2, 1] 1 = .ok [none, some 0, some 0] := by
    norm_num [rsi, deltas, gainOf, lossOf, wilderStep, rsiValue, List.scanl]
  exact ⟨heq, (claim8_rsi_edge_cases [3, 2, 1] 1 [none, some 0, some 0] heq).2.1⟩

/-- C9: the backtest fails with MissingConfigField exactly when the mode
requires a threshold field absent from the config (never substituting a
default), and none of the three configs the application builds triggers it. -/
theorem claim9_missing_config
    (bars : List Bar) (rsis : List ℚ) (cfg : StrategyConfig) (lo up ex : ℚ) :
    (backtest bars rsis cfg = .error .missingConfigField ↔
      missingField cfg = true) ∧
    (cfg ∈ appStrategies lo up ex → (backtest bars rsis cfg).isOk = true) := by
  constructor
  · rcases cfg with ⟨nm, mode, l, u, e⟩
    cases mode with
    | mean_reversion =>
      cases l <;> cases e <;> simp [backtest, engineSigs, missingField]
    | overbought_reversal =>
      cases u <;> cases e <;> simp [backtest, engineSigs, missingField]
    | trend_follow_rsi =>
      simp [backtest, engineSigs, missingField]
  · intro hmem
    simp only [appStrategies, List.mem_cons, List.mem_singleton,
      List.not_mem_nil, or_false] at hmem
    rcases hmem with rfl | rfl | rfl <;>
      simp [backtest, engineSigs, Except.isOk, Except.toBool]

/-- Witness for C9: the application's mean-reversion config never triggers
the missing-field error. -/
theorem claim9_witness :
    (backtest ([] : List Bar) ([] : List ℚ)
      { name := "Mean Reversion", mode := Mode.mean_reversion, lower := some 30,
        upper := none, exit_level := some 50 }).isOk = true := by
  exact (claim9_missing_config [] []
    { name := "Mean Reversion", mode := Mode.mean_reversion, lower := some 30,
      upper := none, exit_level := some 50 } 30 70 50).2 (by simp [appStrategies])

/-- The retry loop succeeds exactly when some attempt within the budget
succeeds. -/
theorem fetchAux_isOk_iff (oracle : ℕ → DownloadResult) :
    ∀ (n a : ℕ) (last : Option String),
      ((fetchAux oracle n a last).1.isOk = true) ↔
        ∃ i, i < n ∧ (attemptDownload (oracle (a + i))).isOk = true := by
  intro n
  induction n with
  | zero =>
    intro a last
    rw [fetchAux_zero]
    simp [Except.isOk, Except.toBool]
  | succ n ih =>
    intro a last
    cases h : attemptDownload (oracle a) with
    | ok df =>
      rw [fetchAux_ok_step oracle n a last df h]
      constructor
      · intro _
        exact ⟨0, by omega, by rw [add_zero, h]; rfl⟩
      · intro _
        rfl
    | error e =>
      rw [fetchAux_err_step oracle n a last e h]
      show ((fetchAux oracle n (a + 1) (some e)).1.isOk = true) ↔ _
      rw [ih (a + 1) (some e)]
      constructor
      · rintro ⟨i, hi, hok⟩
        refine ⟨i + 1, by omega, ?_⟩
        rw [show a + (i + 1) = a + 1 + i by omega]
        exact hok
      · rintro ⟨i, hi, hok⟩
        cases i with
        | zero =>
          rw [add_zero, h] at hok
          exact absurd hok (by simp [Except.isOk, Except.toBool])
        | succ i =>
          refine ⟨i, by omega, ?_⟩
          rw [show a + 1 + i = a + (i + 1) by omega]
          exact hok

/-- The retry loop sleeps at most once per budgeted attempt. -/
theorem fetchAux_sleeps_le (oracle : ℕ → DownloadResult) :
    ∀ (n a : ℕ) (last : Option String), (fetchAux oracle n a last).2.length ≤ n := by
  intro n
  induction n with
  | zero => intro a last; rw [fetchAux_zero]; simp
  | succ n ih =>
    intro a last
    cases h : attemptDownload (oracle a) with
    | ok df => rw [fetchAux_ok_step oracle n a last df h]; simp
    | error e =>
      rw [fetchAux_err_step oracle n a last e h]
      show (15 * (a + 1) :: (fetchAux oracle n (a + 1) (some e)).2).length ≤ n + 1
      rw [List.length_cons]
      exact Nat.succ_le_succ (ih (a + 1) (some e))

/-- When every budgeted attempt fails, the loop raises the runtime error
carrying the last attempt's message and sleeps after every failed attempt. -/
theorem fetchAux_all_fail (oracle : ℕ → DownloadResult) :
    ∀ (n a : ℕ) (last : Option String) (e : String),
      (∀ i, i ≤ n → (attemptDownload (oracle (a + i))).isOk = false) →
      attemptDownload (oracle (a + n)) = .error e →
      fetchAux oracle (n + 1) a last =
        (.error (retriesMsg (some e)),
          (List.range (n + 1)).map (fun i => 15 * (a + i + 1))) := by
  intro n
  induction n with
  | zero =>
    intro a last e _ he
    rw [add_zero] at he
    rw [fetchAux_err_step oracle 0 a last e he, fetchAux_zero]
    simp [show List.range 1 = [0] from rfl]
  | succ n ih =>
    intro a last e hfail he
    obtain ⟨e0, he0⟩ := except_error_of_not_ok _ (by
      have := hfail 0 (by omega)
      rwa [add_zero] at this)
    rw [fetchAux_err_step oracle (n + 1) a last e0 he0]
    rw [ih (a + 1) (some e0) e
      (fun i hi => by
        rw [show a + 1 + i = a + (i + 1) by omega]
        exact hfail (i + 1) (by omega))
      (by
        rw [show a + 1 + n = a + (n + 1) by omega]
        exact he)]
    show (Except.error (retriesMsg (some e)),
      15 * (a + 1) :: (List.range (n + 1)).map (fun i => 15 * (a + 1 + i + 1))) = _
    rw [Prod.mk.injEq]
    refine ⟨rfl, ?_⟩
    rw [List.range_succ_eq_map (n + 1), List.map_cons, List.map_map]
    rw [show 15 * (a + 0 + 1) = 15 * (a + 1) by omega]
    congr 1
    refine List.map_congr_left ?_
    intro i _
    show 15 * (a + 1 + i + 1) = 15 * (a + Nat.succ i + 1)
    omega

/-- When the first success is at attempt k within the budget, the loop
returns that attempt's result after exactly k sleeps. -/
theorem fetchAux_success_at (oracle : ℕ → DownloadResult) :
    ∀ (k n a : ℕ) (last : Option String),
      k < n → (∀ i, i < k → (attemptDownload (oracle (a + i))).isOk = false) →
      (attemptDownload (oracle (a + k))).isOk = true →
      fetchAux oracle n a last =
        (attemptDownload (oracle (a + k)),
          (List.range k).map (fun i => 15 * (a + i + 1))) := by
  intro k
  induction k with
  | zero =>
    intro n a last hk _ hok
    obtain ⟨m, rfl⟩ : ∃ m, n = m + 1 := ⟨n - 1, by omega⟩
    rw [add_zero] at hok ⊢
    cases h : attemptDownload (oracle a) with
    | error e =>
      rw [h] at hok
      exact absurd hok (by simp [Except.isOk, Except.toBool])
    | ok df =>
      rw [fetchAux_ok_step oracle m a last df h]
      simp
  | succ k ih =>
    intro n a last hk hfail hok
    obtain ⟨m, rfl⟩ : ∃ m, n = m + 1 := ⟨n - 1, by omega⟩
    obtain ⟨e0, he0⟩ := except_error_of_not_ok _ (by
      have := hfail 0 (by omega)
      rwa [add_zero] at this)
    rw [fetchAux_err_step oracle m a last e0 he0]
    rw [ih m (a + 1) (some e0) (by omega)
      (fun i hi => by
        rw [show a + 1 + i = a + (i + 1) by omega]
        exact hfail (i + 1) (by omega))
      (by
        rw [show a + 1 + k = a + (k + 1) by omega]
        exact hok)]
    show (attemptDownload (oracle (a + 1 + k)),
      15 * (a + 1) :: (List.range k).map (fun i => 15 * (a + 1 + i + 1))) = _
    rw [Prod.mk.injEq]
    constructor
    · rw [show a + 1 + k = a + (k + 1) by omega]
    · rw [List.range_succ_eq_map k, List.map_cons, List.map_map]
      rw [show 15 * (a + 0 + 1) = 15 * (a + 1) by omega]
      congr 1
      refine List.map_congr_left ?_
      intro i _
      show 15 * (a + 1 + i + 1) = 15 * (a + Nat.succ i + 1)
      omega

/-- C10: fetch_data_yfinance makes at most 4 attempts, treats a raised
download, a None frame and an empty frame alike as failed attempts, sleeps
after each failed attempt, succeeds exactly when some attempt within the
budget succeeds (returning that data), and raises the RuntimeError carrying
the last underlying error exactly when every attempt fails. -/
theorem claim10_fetch_retries (oracle : ℕ → DownloadResult) :
    ((fetch_data_yfinance oracle).1.isOk = true ↔
      ∃ i, i < 4 ∧ (attemptDownload (oracle i)).isOk = true) ∧
    (fetch_data_yfinance oracle).2.length ≤ 4 ∧
    ((∀ i, i < 4 → (attemptDownload (oracle i)).isOk = false) →
      ∃ e, attemptDownload (oracle 3) = .error e ∧
        fetch_data_yfinance oracle =
          (.error ("Yahoo fetch failed after retries: " ++ e), [15, 30, 45, 60])) ∧
    (∀ k, k < 4 → (∀ i, i < k → (attemptDownload (oracle i)).isOk = false) →
      (attemptDownload (oracle k)).isOk = true →
      (fetch_data_yfinance oracle).1 = attemptDownload (oracle k) ∧
      (fetch_data_yfinance oracle).2.length = k) := by
  refine ⟨?_, ?_, ?_, ?_⟩
  · have h := fetchAux_isOk_iff oracle 4 0 none
    simpa [fetch_data_yfinance] using h
  · exact fetchAux_sleeps_le oracle 4 0 none
  · intro hfail
    obtain ⟨e, he⟩ := except_error_of_not_ok _ (hfail 3 (by omega))
    refine ⟨e, he, ?_⟩
    have h := fetchAux_all_fail oracle 3 0 none e
      (fun i hi => by simpa using hfail i (by omega)) (by simpa using he)
    rw [show fetch_data_yfinance oracle = fetchAux oracle 4 0 none from rfl, h,
      Prod.mk.injEq]
    constructor
    · simp [retriesMsg]
    · rfl
  · intro k hk hfail hok
    have h := fetchAux_success_at oracle k 4 0 none hk
      (fun i hi => by simpa using hfail i hi) (by simpa using hok)
    rw [show fetch_data_yfinance oracle = fetchAux oracle 4 0 none from rfl, h]
    constructor
    · simp
    · simp

/-- Witness for C10: an oracle whose every download comes back as a None
frame exhausts the four attempts and raises the RuntimeError carrying the
empty-frame message. -/
theorem claim10_witness :
    (fetch_data_yfinance (fun _ => DownloadResult.noneFrame)).1 =
      .error ("Yahoo fetch failed after retries: " ++ emptyFrameMsg) := by
  obtain ⟨e, he, heq⟩ :=
    (claim10_fetch_retries (fun _ => DownloadResult.noneFrame)).2.2.1
      (fun i _ => rfl)
  have he' : e = emptyFrameMsg := by
    have h2 : Except.error (α := List RawRow) e = .error emptyFrameMsg := by
      rw [← he]
      rfl
    exact (Except.error.inj h2)
  rw [heq, he']
